import Mathlib

/-!
Verification development for the autoperm repository: a digraph autokey
substitution cipher built on a sparse finite-permutation algebra
(`src/src/perm.py`), the cipher engine (`src/src/autoperm.py`, with an older
revision at `src/autoperm.py`), and a streaming formatter
(`src/src/cipher_streamer.py`) with a punctuation-preserving mode and a
block-formatting strip mode.

Text is modelled at the byte level: a character is a `Nat`, and the Python
string predicates `str.isalpha`, `str.isupper`, `str.upper`, `str.lower`,
`str.strip` are embedded with their ASCII semantics (the repository itself
documents, in `util.py`, that non-ASCII alphabetic input is out of scope).
-/

namespace Autoperm

/-- ASCII model of Python `str.isalpha` on a single byte. -/
def isalpha (c : Nat) : Bool :=
  (65 ≤ c && c ≤ 90) || (97 ≤ c && c ≤ 122)

/-- ASCII model of Python `str.isupper` on a single byte. -/
def isupper (c : Nat) : Bool :=
  65 ≤ c && c ≤ 90

/-- ASCII model of Python `str.upper` on a single byte. -/
def toupper (c : Nat) : Nat :=
  if 97 ≤ c && c ≤ 122 then c - 32 else c

/-- ASCII model of Python `str.lower` on a single byte. -/
def tolower (c : Nat) : Nat :=
  if 65 ≤ c && c ≤ 90 then c + 32 else c

/-- The bytes removed by Python `str.strip`: space, tab, newline, carriage
return, vertical tab, form feed. -/
def iswspace (c : Nat) : Bool :=
  c = 32 || c = 9 || c = 10 || c = 13 || c = 11 || c = 12

/-- Python `str.strip`: drop leading and trailing whitespace. -/
def pstrip (l : List Nat) : List Nat :=
  ((l.dropWhile iswspace).reverse.dropWhile iswspace).reverse

namespace CipherStreamer

/-!
`CipherStreamer.preserve` (src/src/cipher_streamer.py lines 154-184; the same
loop is `CipherStreamer.__call__` in the old revision src/autoperm.py lines
191-213).  The generator output is walked one letter at a time; for each
output letter the input tee is advanced, copying non-alphabetic characters
verbatim, and the letter is written case-matched to the alphabetic input
character that stopped the scan.  Once the output is exhausted, the
remaining non-alphabetic input characters are flushed.
-/

/-- The write loop of `CipherStreamer.preserve`: `out` is the remaining
transform output, `rest` is the part of the teed input not yet consumed by
the inner punctuation scan.  Returns the bytes written to `out_file`. -/
def preserveWrite : List Nat → List Nat → List Nat
  | [], rest =>
      -- final flush: `for punc in in_file_2: if not punc.isalpha(): write`
      rest.filter (fun c => !isalpha c)
  | c :: cs, rest =>
      -- `punc = ' '` then the inner scan writes non-alphabetic characters
      -- until it breaks at an alphabetic one (or exhausts the input)
      let puncs := rest.takeWhile (fun x => !isalpha x)
      match rest.dropWhile (fun x => !isalpha x) with
      | [] =>
          -- input exhausted without meeting a letter: surplus output letter
          -- is written as it is, with no case adjustment
          puncs ++ c :: preserveWrite cs []
      | p :: rest2 =>
          puncs ++ (if isupper p then toupper c else tolower c)
            :: preserveWrite cs rest2

/-- `CipherStreamer.preserve` as a whole: feed the uppercased alphabetic
characters of `input` to `transform`, then interleave its output with the
original text. -/
def preserveRun (transform : List Nat → List Nat) (input : List Nat) :
    List Nat :=
  preserveWrite (transform ((input.filter isalpha).map toupper)) input

/-- `chunk` from src/src/cipher_streamer.py, restricted to the way
`get_lines` consumes it: the trailing chunk is not padded, because the
`fillvalue` used there is the empty string, which disappears when the chunk
is joined.  `chunk(iterable, 0)` yields nothing, as `zip_longest()` of zero
iterators does. -/
def chunkGo (k : Nat) : Nat → List α → List (List α)
  | _, [] => []
  | 0, _ :: _ => []
  | fuel + 1, x :: xs => (x :: xs).take k :: chunkGo k fuel ((x :: xs).drop k)

def chunkList (k : Nat) (l : List α) : List (List α) :=
  -- the fuel is an upper bound on the number of chunks; with k ≥ 1 each
  -- step consumes at least one element, so it is never exhausted
  if k = 0 then [] else chunkGo k l.length l

/-- `get_lines` (src/src/cipher_streamer.py lines 19-53).  Produces the list
of unterminated lines, or the `ValueError` raised when both sizes are
positive and `width < block`.  Each line is a list of bytes; the single
separating space (byte 32) is appended after every block. -/
def get_lines (s : List Nat) (block width : Int) :
    Except String (List (List Nat)) :=
  if min block width > 0 ∧ width < block then
    .error "ValueError: width should be >= block"
  else .ok <|
    if block ≤ 0 then
      if width ≤ 0 then [s]
      else chunkList width.toNat s
    else
      let chunksSpaced := (chunkList block.toNat s).map (fun c => c ++ [32])
      if width ≤ 0 then [chunksSpaced.flatten]
      else
        (chunkList ((width.toNat + 1) / (block.toNat + 1)) chunksSpaced).map
          List.flatten

/-- What `CipherStreamer.strip` writes for one line:
`"".join(line).strip().upper()`. -/
def renderLine (l : List Nat) : List Nat :=
  (pstrip l).map toupper

/-- The output loop of `CipherStreamer.strip` (src/src/cipher_streamer.py
lines 141-147): `zip_longest` over the formatted output lines and the
formatted source lines.  When the output side is exhausted first, Python
evaluates `"".join(None)` and dies with a `TypeError`; that failure is the
`.error` case here. -/
def stripZip (cmp : Bool) :
    List (List Nat) → List (List Nat) → Except String (List Nat)
  | [], [] => .ok []
  | [], _ :: _ => .error "TypeError: can only join an iterable"
  | line :: ls, [] =>
      match stripZip cmp ls [] with
      | .error e => .error e
      | .ok rest =>
          .ok (renderLine line ++ [10] ++ (if cmp then [10] else []) ++ rest)
  | line :: ls, plain :: ps =>
      match stripZip cmp ls ps with
      | .error e => .error e
      | .ok rest =>
          .ok ((if cmp then renderLine plain ++ [10] else [])
            ++ renderLine line ++ [10] ++ (if cmp then [10] else []) ++ rest)

/-- `CipherStreamer.strip` (src/src/cipher_streamer.py lines 109-147):
uppercase the alphabetic characters of the input, format the source lines
when `compare` is set, format the transform output, and run the write loop.
The two `get_lines` calls happen before anything is written, so a
configuration error yields no output at all. -/
def stripRun (transform : List Nat → List Nat) (input : List Nat)
    (block width : Int) (compare : Bool) : Except String (List Nat) :=
  match (if compare
          then get_lines ((input.filter isalpha).map toupper) block width
          else .ok []) with
  | .error e => .error e
  | .ok plainLines =>
      match get_lines (transform ((input.filter isalpha).map toupper))
          block width with
      | .error e => .error e
      | .ok outLines => stripZip compare outLines plainLines

/-- The text written by the compare write loop when it does not fail:
for each source line with a matching output line, the source line, a
newline, the output line, a newline, and the separating blank line; each
surplus output line is then written with no accompanying source line. -/
def expectedCompare (out plain : List (List Nat)) : List Nat :=
  ((out.take plain.length).zip plain).flatMap
      (fun pr => renderLine pr.2 ++ 10 :: renderLine pr.1 ++ [10, 10])
    ++ (out.drop plain.length).flatMap (fun l => renderLine l ++ [10, 10])

end CipherStreamer

/-!
The permutation algebra (src/src/perm.py).  A `Perm` wraps the Python
`mapping` dictionary, embedded as an association list; the dictionary
invariant (no duplicate keys) is `Perm.WF`.  Lookup of an absent key falls
back to the key itself, per `Perm.__getitem__`.
-/

variable {α : Type} [DecidableEq α]

/-- Python `dict.get(a, a)` on an association list: the value of the first
matching key, or the key itself when absent (a Python dictionary never holds
a duplicate key, so first-match agrees with dictionary lookup). -/
def dget : List (α × α) → α → α
  | [], a => a
  | p :: m, a => if p.1 = a then p.2 else dget m a

/-- Python `dict.__setitem__`: overwrite the value of an existing key in
place, otherwise append the new entry. -/
def dinsert (m : List (α × α)) (k v : α) : List (α × α) :=
  if m.any (fun p => p.1 = k) then
    m.map (fun p => if p.1 = k then (k, v) else p)
  else m ++ [(k, v)]

/-- `Perm` (src/src/perm.py lines 7-25): an explicit finite mapping, treated
as the identity outside its keys. -/
structure Perm (α : Type) where
  mapping : List (α × α)

namespace Perm

/-- `Perm.__getitem__` (src/src/perm.py lines 97-103): apply the
permutation; an unknown item is mapped to itself. -/
def get (g : Perm α) (a : α) : α := dget g.mapping a

/-- The explicit domain: the keys of the underlying dictionary. -/
def keys (g : Perm α) : List α := g.mapping.map Prod.fst

/-- The values of the underlying dictionary. -/
def values (g : Perm α) : List α := g.mapping.map Prod.snd

/-- The dictionary invariant: keys are distinct. -/
def WF (g : Perm α) : Prop := g.keys.Nodup

instance (g : Perm α) : Decidable g.WF := by
  unfold WF; infer_instance

/-- `Perm.is_permutation` (src/src/perm.py lines 48-53):
`set(keys) == set(values)`. -/
def is_permutation (g : Perm α) : Bool :=
  decide (g.keys.toFinset = g.values.toFinset)

/-- A valid permutation value: a genuine dictionary whose explicit mapping
is a bijection of its keys (the documented precondition of the class). -/
def Valid (g : Perm α) : Prop := g.WF ∧ g.is_permutation = true

instance (g : Perm α) : Decidable g.Valid := by
  unfold Valid; infer_instance

/-- The consecutive pairs `(cycle[i], cycle[(i+1) % len(cycle)])` traversed
by `Perm.from_cycle`. -/
def cyclePairs : List α → List (α × α)
  | [] => []
  | x :: xs => (x :: xs).zip (xs ++ [x])

/-- `Perm.from_cycle` (src/src/perm.py lines 27-37): build the dictionary
by inserting each consecutive pair in order (a repeated symbol overwrites
its earlier entry, as in a Python dict). -/
def from_cycle (l : List α) : Perm α :=
  ⟨(cyclePairs l).foldl (fun m p => dinsert m p.1 p.2) []⟩

/-- `Perm.inverse` (src/src/perm.py lines 78-82):
`{v: k for k, v in mapping.items()}`, a dict comprehension, i.e. insertion
of the swapped items in order. -/
def inverse (g : Perm α) : Perm α :=
  ⟨g.mapping.foldl (fun m p => dinsert m p.2 p.1) []⟩

/-- The union `set(self.mapping) | set(other.mapping)` of the explicit
domains, as a duplicate-free list. -/
def unionKeys (g h : Perm α) : List α := (g.keys ++ h.keys).dedup

/-- `Perm.__mul__` (src/src/perm.py lines 105-113):
`{a: self[other[a]] for a in set(self.mapping) | set(other.mapping)}`. -/
def mul (g h : Perm α) : Perm α :=
  ⟨(g.unionKeys h).map (fun a => (a, g.get (h.get a)))⟩

instance : Mul (Perm α) := ⟨mul⟩

/-- The nonnegative branch of `Perm.__pow__` (src/src/perm.py lines
115-142): hardcoded cases 0, 1, 2, then exponentiation by squaring, with
`self * exp_by_sqr` prepended for odd exponents. -/
def powNat (g : Perm α) : Nat → Perm α
  | 0 => ⟨[]⟩
  | 1 => g
  | 2 => g.mul g
  | n + 3 =>
      -- exp_by_sqr = (self ** (n // 2)) ** 2, where the outer ** 2 runs the
      -- hardcoded square case; n & 1 is the parity of the exponent
      let e := (g.powNat ((n + 3) / 2)).powNat 2
      if (n + 3) % 2 = 1 then g.mul e else e
termination_by n => n
decreasing_by all_goals omega

/-- `Perm.__pow__` on an arbitrary integer: a negative exponent is
`self.inverse() ** (-n)`, which re-enters the nonnegative branch. -/
def pow (g : Perm α) (n : Int) : Perm α :=
  if n < 0 then g.inverse.powNat (-n).toNat else g.powNat n.toNat

/-- `Perm.__eq__` (src/src/perm.py lines 144-149): every explicit item of
each side maps to the same thing under the other. -/
def eqv (g h : Perm α) : Bool :=
  g.mapping.all (fun p => p.2 == h.get p.1)
    && h.mapping.all (fun p => p.2 == g.get p.1)

/-- The n-fold iterated composition used by the specification to state the
meaning of `power`: composing `g` with itself `n` times, the empty product
being the identity with empty explicit domain. -/
def iterPow (g : Perm α) : Nat → Perm α
  | 0 => ⟨[]⟩
  | n + 1 => g.mul (g.iterPow n)

/-- The inner `while b != a` walk of `disjoint_cycle_decomposition`
(src/src/perm.py lines 70-73), collecting the rest of the orbit of `a`.
The fuel argument bounds the walk; for a valid permutation the orbit of an
explicit key has at most `len(mapping)` elements, so a budget of
`len(mapping)` steps after the head is never exhausted. -/
def orbitGo (g : Perm α) (a : α) : α → Nat → List α
  | _, 0 => []
  | b, fuel + 1 => if b = a then [] else b :: g.orbitGo a (g.get b) fuel

/-- One cycle `[a, self[a], self[self[a]], ...]` as collected by
`disjoint_cycle_decomposition` starting from `a`. -/
def orbit (g : Perm α) (a : α) : List α :=
  a :: g.orbitGo a (g.get a) g.mapping.length

/-- The outer `while remaining` loop of `disjoint_cycle_decomposition`
(src/src/perm.py lines 62-76): pop a key, walk its cycle, remove the
visited keys from the remaining set, and keep the cycle when it has more
than one element.  `set.pop` returns an arbitrary element; the embedding
pops the first element of the remaining list, which is one of the
legitimate executions. -/
def dcdGo (g : Perm α) : List α → List (List α)
  | [] => []
  | a :: rest =>
      let c := g.orbit a
      let rest2 := rest.filter (fun x => decide (x ∉ c))
      if 1 < c.length then c :: g.dcdGo rest2 else g.dcdGo rest2
termination_by l => l.length
decreasing_by
  all_goals
    simp only [List.length_cons]
    exact Nat.lt_succ_of_le (List.length_filter_le _ _)

/-- `Perm.disjoint_cycle_decomposition` (src/src/perm.py lines 55-76). -/
def disjoint_cycle_decomposition (g : Perm α) : List (List α) :=
  g.dcdGo g.keys

/-- The product of a list of cycles rebuilt through `from_cycle`, used by
the specification to state that the decomposition reconstructs the
permutation. -/
def cycleProd (cs : List (List α)) : Perm α :=
  cs.foldr (fun c acc => (from_cycle c).mul acc) ⟨[]⟩

end Perm

/-!
The cipher engine.  `autoperm_encipher` and `autoperm_decipher` are the
undecorated generator bodies (`.func`) of src/src/autoperm.py lines 27-57,
acting on the letter stream; `chunk(stream, 2)` pads an odd stream with
`None`, embedded here by pattern matching on a one-element remainder.
-/

/-- `autoperm_encipher.func` (src/src/autoperm.py lines 27-39). -/
def autoperm_encipher : List α → Perm α → Perm α → List α
  | [], _, _ => []
  | [a], sigma, _ => [sigma.get a]
  | a :: b :: rest, sigma, tau =>
      sigma.get a :: tau.get b ::
        autoperm_encipher rest (sigma.mul (Perm.from_cycle [a, b]))
          (tau.mul (Perm.from_cycle [a, b]))

/-- The loop of `autoperm_decipher.func` (src/src/autoperm.py lines 48-57),
threading the running inverses. -/
def autoperm_decipher_go : List α → Perm α → Perm α → List α
  | [], _, _ => []
  | [a], sigmaInv, _ => [sigmaInv.get a]
  | a :: b :: rest, sigmaInv, tauInv =>
      let aPlain := sigmaInv.get a
      let bPlain := tauInv.get b
      aPlain :: bPlain ::
        autoperm_decipher_go rest
          ((Perm.from_cycle [aPlain, bPlain]).mul sigmaInv)
          ((Perm.from_cycle [aPlain, bPlain]).mul tauInv)

/-- `autoperm_decipher.func` (src/src/autoperm.py lines 41-57): invert the
keys once, then run the loop. -/
def autoperm_decipher (l : List α) (sigma tau : Perm α) : List α :=
  autoperm_decipher_go l sigma.inverse tau.inverse

/-- The loop of the older `autoperm_decipher.func` revision
(src/autoperm.py lines 243-252).  In the odd terminal case that revision
executes `yield sigma_inverse[b]` where `b` is `None`; `None` is not a key
of the letter dictionary, so `dict.get(None, None)` returns `None` itself,
embedded as the stream element `none`. -/
def autoperm_decipher_old_go : List α → Perm α → Perm α → List (Option α)
  | [], _, _ => []
  | [_], _, _ => [none]
  | a :: b :: rest, sigmaInv, tauInv =>
      let aPlain := sigmaInv.get a
      let bPlain := tauInv.get b
      some aPlain :: some bPlain ::
        autoperm_decipher_old_go rest
          ((Perm.from_cycle [aPlain, bPlain]).mul sigmaInv)
          ((Perm.from_cycle [aPlain, bPlain]).mul tauInv)

/-- The older `autoperm_decipher.func` (src/autoperm.py lines 236-252). -/
def autoperm_decipher_old (l : List α) (sigma tau : Perm α) :
    List (Option α) :=
  autoperm_decipher_old_go l sigma.inverse tau.inverse

/-- The key pair of the concrete test scenario: sigma the 4-cycle
(A B C D). -/
def sigmaEx : Perm Char := Perm.from_cycle ['A', 'B', 'C', 'D']

/-- tau = (A B)(C D). -/
def tauEx : Perm Char := (Perm.from_cycle ['A', 'B']).mul
  (Perm.from_cycle ['C', 'D'])

/-- An example permutation (A B)(D E F) with the explicit fixed point C,
used as a concrete instance for the cycle-decomposition theorem. -/
def dcdEx : Perm Char :=
  ⟨[('A', 'B'), ('B', 'A'), ('C', 'C'), ('D', 'E'), ('E', 'F'), ('F', 'D')]⟩

/-!  ### Byte-level case lemmas  -/

theorem isalpha_iff {c : Nat} :
    isalpha c = true ↔ (65 ≤ c ∧ c ≤ 90) ∨ (97 ≤ c ∧ c ≤ 122) := by
  simp [isalpha, Bool.or_eq_true, Bool.and_eq_true, decide_eq_true_eq]

/-- Case restoration: uppercasing a letter and then matching it back to the
case of the original letter is the identity. -/
theorem case_roundtrip {a : Nat} (h : isalpha a = true) :
    (if isupper a then toupper (toupper a) else tolower (toupper a)) = a := by
  rw [isalpha_iff] at h
  simp only [isupper, toupper, tolower, Bool.and_eq_true, decide_eq_true_eq]
  split_ifs <;> omega

namespace CipherStreamer

/-!  ### Preserve mode  -/

/-- A non-alphabetic input character in front of the remaining input is
copied to the output verbatim, whatever the remaining transform output. -/
theorem preserveWrite_cons_notalpha (out : List Nat) {c : Nat}
    (hc : isalpha c = false) (rest : List Nat) :
    preserveWrite out (c :: rest) = c :: preserveWrite out rest := by
  cases out with
  | nil => simp [preserveWrite, hc]
  | cons d ds =>
      have ht : (c :: rest).takeWhile (fun x => !isalpha x)
          = c :: rest.takeWhile (fun x => !isalpha x) := by
        simp [List.takeWhile_cons, hc]
      have hd : (c :: rest).dropWhile (fun x => !isalpha x)
          = rest.dropWhile (fun x => !isalpha x) := by
        simp [List.dropWhile_cons, hc]
      rw [preserveWrite, preserveWrite, ht, hd]
      cases h : rest.dropWhile (fun x => !isalpha x) <;> simp

/-- An alphabetic input character stops the punctuation scan: the next
output letter is written with its case, and the scan resumes after it. -/
theorem preserveWrite_cons_alpha (c : Nat) (cs : List Nat) {a : Nat}
    (ha : isalpha a = true) (rest : List Nat) :
    preserveWrite (c :: cs) (a :: rest)
      = (if isupper a then toupper c else tolower c)
          :: preserveWrite cs rest := by
  have ht : (a :: rest).takeWhile (fun x => !isalpha x) = [] := by
    simp [List.takeWhile_cons, ha]
  have hd : (a :: rest).dropWhile (fun x => !isalpha x) = a :: rest := by
    simp [List.dropWhile_cons, ha]
  rw [preserveWrite, ht, hd]
  simp

/-- C2.  For every input text, preserve mode with the identity letter
transform writes output byte-for-byte identical to the input: the letters
are put back with their original case and all other characters are copied
verbatim. -/
theorem preserve_identity_transform (input : List Nat) :
    preserveRun (fun l => l) input = input := by
  unfold preserveRun
  induction input with
  | nil => rfl
  | cons c rest ih =>
      cases hc : isalpha c with
      | false =>
          rw [List.filter_cons_of_neg (by simp [hc])]
          rw [preserveWrite_cons_notalpha _ hc, ih]
      | true =>
          rw [List.filter_cons_of_pos (by simp [hc])]
          simp only [List.map_cons]
          rw [preserveWrite_cons_alpha _ _ hc, ih, case_roundtrip hc]

/-- C10.  If the transform output covers exactly the alphabetic positions
of the prefix `u`, the suffix `v` of the input contributes only its
non-alphabetic characters to the output: every alphabetic character of the
input beyond the last transform-consumed position is silently discarded. -/
theorem preserve_discards_unconsumed (out u v : List Nat)
    (h : (u.filter isalpha).length = out.length) :
    preserveWrite out (u ++ v)
      = preserveWrite out u ++ v.filter (fun c => !isalpha c) := by
  induction u generalizing out with
  | nil =>
      have : out = [] := by
        cases out with
        | nil => rfl
        | cons c cs => simp at h
      subst this
      simp [preserveWrite]
  | cons c u2 ih =>
      cases hc : isalpha c with
      | false =>
          rw [List.filter_cons_of_neg (by simp [hc])] at h
          rw [List.cons_append, preserveWrite_cons_notalpha _ hc,
            preserveWrite_cons_notalpha _ hc, ih out h, List.cons_append]
      | true =>
          rw [List.filter_cons_of_pos (by simp [hc])] at h
          cases out with
          | nil => simp at h
          | cons d ds =>
              simp only [List.length_cons, Nat.succ.injEq] at h
              rw [List.cons_append, preserveWrite_cons_alpha _ _ hc,
                preserveWrite_cons_alpha _ _ hc, ih ds h, List.cons_append]

/-- Closed instance of `preserve_discards_unconsumed`: the three-letter
output `XXX` against the input `"Sphinx (of black quartz), judge my vow!?"`
split after its third letter. -/
theorem preserve_discards_unconsumed_witness :
    (("\"Sph".toList.map Char.toNat).filter isalpha).length
        = [88, 88, 88].length ∧
      preserveWrite [88, 88, 88]
          (("\"Sph".toList.map Char.toNat)
            ++ ("inx (of black quartz), judge my vow!?\";".toList.map
                  Char.toNat))
        = preserveWrite [88, 88, 88] ("\"Sph".toList.map Char.toNat)
            ++ ("inx (of black quartz), judge my vow!?\";".toList.map
                  Char.toNat).filter (fun c => !isalpha c) :=
  ⟨by decide, preserve_discards_unconsumed _ _ _ (by decide)⟩

end CipherStreamer

/-!  ### Concrete cipher scenarios  -/

/-- C3.  With sigma = (A B C D) and tau = (A B)(C D): enciphering `ABCDAB`
yields `BADCCB`; enciphering the odd-length `ABCDA` yields `BADCC`, the
final unpaired `A` enciphered by the same sigma as in the even run (no
state update after it); deciphering each output returns its input. -/
theorem autoperm_concrete_scenario :
    autoperm_encipher "ABCDAB".toList sigmaEx tauEx = "BADCCB".toList
      ∧ autoperm_encipher "ABCDA".toList sigmaEx tauEx = "BADCC".toList
      ∧ autoperm_decipher "BADCCB".toList sigmaEx tauEx = "ABCDAB".toList
      ∧ autoperm_decipher "BADCC".toList sigmaEx tauEx = "ABCDA".toList := by
  refine ⟨by decide, by decide, by decide, by decide⟩

/-!  ### Dictionary lemmas  -/

theorem dget_eq_of_mem {m : List (α × α)} (hnd : (m.map Prod.fst).Nodup)
    {k v : α} (hm : (k, v) ∈ m) : dget m k = v := by
  induction m with
  | nil => cases hm
  | cons p m ih =>
      simp only [List.map_cons, List.nodup_cons] at hnd
      rcases List.mem_cons.mp hm with h | h
      · rw [← h]
        simp [dget]
      · have hk : p.1 ≠ k := by
          intro he
          exact hnd.1 (he ▸ List.mem_map_of_mem Prod.fst h)
        simp only [dget, if_neg hk]
        exact ih hnd.2 h

theorem dget_eq_self {m : List (α × α)} {k : α} (h : k ∉ m.map Prod.fst) :
    dget m k = k := by
  induction m with
  | nil => rfl
  | cons p m ih =>
      simp only [List.map_cons, List.mem_cons, not_or] at h
      simp only [dget, if_neg (Ne.symm h.1)]
      exact ih h.2

theorem dget_mem_values {m : List (α × α)} {k : α}
    (h : k ∈ m.map Prod.fst) : dget m k ∈ m.map Prod.snd := by
  induction m with
  | nil => cases h
  | cons p m ih =>
      by_cases hk : p.1 = k
      · simp [dget, hk]
      · simp only [dget, if_neg hk]
        simp only [List.map_cons, List.mem_cons] at h ⊢
        exact Or.inr (ih (h.resolve_left (fun he => hk he.symm)))

theorem dinsert_of_not_mem {m : List (α × α)} {k : α} (v : α)
    (h : k ∉ m.map Prod.fst) : dinsert m k v = m ++ [(k, v)] := by
  unfold dinsert
  rw [if_neg]
  simp only [List.any_eq_true, decide_eq_true_eq, not_exists, not_and]
  intro p hp he
  exact h (he ▸ List.mem_map_of_mem Prod.fst hp)

theorem keys_dinsert (m : List (α × α)) (k v : α) :
    (dinsert m k v).map Prod.fst
      = if k ∈ m.map Prod.fst then m.map Prod.fst
        else m.map Prod.fst ++ [k] := by
  by_cases h : k ∈ m.map Prod.fst
  · rw [if_pos h]
    unfold dinsert
    rw [if_pos]
    · rw [List.map_map]
      apply List.map_congr_left
      intro p _
      by_cases hp : p.1 = k <;> simp [Function.comp_def, hp]
    · simp only [List.any_eq_true, decide_eq_true_eq]
      obtain ⟨p, hp, he⟩ := List.mem_map.mp h
      exact ⟨p, hp, he⟩
  · rw [if_neg h, dinsert_of_not_mem v h]
    simp

theorem nodup_keys_dinsert {m : List (α × α)} (k v : α)
    (h : (m.map Prod.fst).Nodup) :
    ((dinsert m k v).map Prod.fst).Nodup := by
  rw [keys_dinsert]
  by_cases hk : k ∈ m.map Prod.fst
  · rwa [if_pos hk]
  · rw [if_neg hk]
    have hdisj : (m.map Prod.fst).Disjoint [k] := by
      intro a ha hb
      rw [List.mem_singleton] at hb
      exact hk (hb ▸ ha)
    exact List.nodup_append.mpr ⟨h, List.nodup_singleton k, hdisj⟩

theorem nodup_keys_foldl_dinsert (l : List (α × α)) :
    ∀ acc : List (α × α), (acc.map Prod.fst).Nodup →
      ((l.foldl (fun m p => dinsert m p.1 p.2) acc).map Prod.fst).Nodup := by
  induction l with
  | nil => intro acc h; simpa using h
  | cons p l ih =>
      intro acc h
      exact ih (dinsert acc p.1 p.2) (nodup_keys_dinsert p.1 p.2 h)

theorem foldl_dinsert_eq_append (l : List (α × α))
    (hnd : (l.map Prod.fst).Nodup) :
    ∀ acc : List (α × α), (∀ p ∈ l, p.1 ∉ acc.map Prod.fst) →
      l.foldl (fun m p => dinsert m p.1 p.2) acc = acc ++ l := by
  induction l with
  | nil => intro acc _; simp
  | cons p l ih =>
      intro acc hfresh
      simp only [List.map_cons, List.nodup_cons] at hnd
      rw [List.foldl_cons,
        dinsert_of_not_mem p.2 (hfresh p (List.mem_cons_self p l))]
      rw [ih hnd.2 (acc ++ [p]) ?_]
      · simp
      · intro q hq
        simp only [List.map_append, List.mem_append, not_or]
        refine ⟨fun hmem => hfresh q (List.mem_cons_of_mem p hq) hmem, ?_⟩
        simp only [List.map_cons, List.map_nil, List.mem_singleton]
        intro he
        exact hnd.1 (he ▸ List.mem_map_of_mem Prod.fst hq)

namespace Perm

/-!  ### Semantic lemmas for the permutation operations  -/

theorem mul_def (g h : Perm α) : g * h = g.mul h := rfl

theorem get_id (a : α) : (⟨[]⟩ : Perm α).get a = a := rfl

theorem WF_id : (⟨[]⟩ : Perm α).WF := by simp [WF, keys]

/-- The item-swapping fold of `inverse`, rephrased as the standard
dictionary-building fold over the swapped item list. -/
theorem inverse_mapping_eq_foldl (g : Perm α) :
    g.inverse.mapping
      = (g.mapping.map (fun p => (p.2, p.1))).foldl
          (fun m p => dinsert m p.1 p.2) [] := by
  unfold inverse
  rw [List.foldl_map]

theorem WF_inverse (g : Perm α) : g.inverse.WF := by
  unfold WF keys
  rw [inverse_mapping_eq_foldl]
  exact nodup_keys_foldl_dinsert _ [] (by simp)

theorem WF_from_cycle (l : List α) : (from_cycle l).WF := by
  show ((cyclePairs l).foldl (fun m p => dinsert m p.1 p.2) []).map
      Prod.fst |>.Nodup
  exact nodup_keys_foldl_dinsert _ [] (by simp)

theorem keys_mul (g h : Perm α) : (g.mul h).keys = g.unionKeys h := by
  simp [keys, mul, List.map_map, Function.comp_def]

theorem WF_mul (g h : Perm α) : (g.mul h).WF := by
  unfold WF
  rw [keys_mul]
  exact (g.keys ++ h.keys).nodup_dedup

theorem mem_unionKeys {g h : Perm α} {a : α} :
    a ∈ g.unionKeys h ↔ a ∈ g.keys ∨ a ∈ h.keys := by
  simp [unionKeys]

theorem get_of_not_mem_keys {g : Perm α} {a : α} (h : a ∉ g.keys) :
    g.get a = a :=
  dget_eq_self h

theorem get_mem_values {g : Perm α} {a : α} (h : a ∈ g.keys) :
    g.get a ∈ g.values :=
  dget_mem_values h

/-- Composition is exact function composition on every symbol, explicit or
not. -/
theorem get_mul (g h : Perm α) (a : α) :
    (g.mul h).get a = g.get (h.get a) := by
  by_cases hmem : a ∈ g.unionKeys h
  · have hpair : (a, g.get (h.get a)) ∈ (g.mul h).mapping := by
      simp only [mul]
      exact List.mem_map.mpr ⟨a, hmem, rfl⟩
    exact dget_eq_of_mem (WF_mul g h) hpair
  · have h1 : a ∉ g.keys := fun hc => hmem (mem_unionKeys.mpr (Or.inl hc))
    have h2 : a ∉ h.keys := fun hc => hmem (mem_unionKeys.mpr (Or.inr hc))
    have hko : a ∉ (g.mul h).keys := by
      rw [keys_mul]
      exact hmem
    rw [get_of_not_mem_keys hko, get_of_not_mem_keys h2,
      get_of_not_mem_keys h1]

theorem length_keys (g : Perm α) : g.keys.length = g.mapping.length := by
  simp [keys]

theorem length_values (g : Perm α) : g.values.length = g.mapping.length := by
  simp [values]

theorem mem_keys_iff_mem_values {g : Perm α}
    (h : g.is_permutation = true) {a : α} : a ∈ g.keys ↔ a ∈ g.values := by
  have := of_decide_eq_true h
  rw [← List.mem_toFinset, ← List.mem_toFinset (l := g.values), this]

theorem values_nodup_of_valid {g : Perm α} (hg : g.Valid) :
    g.values.Nodup := by
  have hperm := of_decide_eq_true hg.2
  have hkcard : g.keys.toFinset.card = g.keys.length :=
    List.toFinset_card_of_nodup hg.1
  have hvcard : g.values.toFinset.card = g.values.dedup.length :=
    List.card_toFinset g.values
  have hlen : g.values.dedup.length = g.values.length := by
    rw [← hvcard, ← hperm, hkcard, length_keys, length_values]
  have : g.values.dedup = g.values :=
    g.values.dedup_sublist.eq_of_length hlen
  rw [← this]
  exact g.values.nodup_dedup

/-- Under the bijection precondition the dict comprehension of `inverse`
is exactly the item-swapped dictionary. -/
theorem inverse_mapping {g : Perm α} (h : g.values.Nodup) :
    g.inverse.mapping = g.mapping.map (fun p => (p.2, p.1)) := by
  rw [inverse_mapping_eq_foldl, foldl_dinsert_eq_append _ ?_ [] (by simp)]
  · simp
  · simpa [List.map_map, Function.comp_def] using h

theorem keys_inverse {g : Perm α} (h : g.values.Nodup) :
    g.inverse.keys = g.values := by
  unfold keys
  rw [inverse_mapping h]
  simp [values, List.map_map, Function.comp_def]

theorem values_inverse {g : Perm α} (h : g.values.Nodup) :
    g.inverse.values = g.keys := by
  unfold values
  rw [inverse_mapping h]
  simp [keys, List.map_map, Function.comp_def]

theorem valid_inverse {g : Perm α} (hg : g.Valid) : g.inverse.Valid := by
  have hv := values_nodup_of_valid hg
  refine ⟨WF_inverse g, ?_⟩
  apply decide_eq_true
  rw [keys_inverse hv, values_inverse hv]
  exact (of_decide_eq_true hg.2).symm

/-- Applying the inverse after the permutation recovers the symbol. -/
theorem inverse_get_get {g : Perm α} (hg : g.Valid) (a : α) :
    g.inverse.get (g.get a) = a := by
  have hv := values_nodup_of_valid hg
  by_cases hk : a ∈ g.keys
  · obtain ⟨p, hp, he⟩ := List.mem_map.mp hk
    have hga : g.get a = p.2 := by
      rw [← he]
      exact dget_eq_of_mem hg.1 (by simpa using hp)
    have hpair : (p.2, p.1) ∈ g.inverse.mapping := by
      rw [inverse_mapping hv]
      exact List.mem_map.mpr ⟨p, hp, rfl⟩
    rw [hga]
    have := dget_eq_of_mem (g.WF_inverse) hpair
    rw [show g.inverse.get p.2 = dget g.inverse.mapping p.2 from rfl, this, he]
  · have hnv : a ∉ g.values := fun hc =>
      hk ((mem_keys_iff_mem_values hg.2).mpr hc)
    rw [get_of_not_mem_keys hk, get_of_not_mem_keys]
    rw [keys_inverse hv]
    exact hnv

/-- Applying the permutation after its inverse recovers the symbol. -/
theorem get_inverse_get {g : Perm α} (hg : g.Valid) (a : α) :
    g.get (g.inverse.get a) = a := by
  have hv := values_nodup_of_valid hg
  by_cases hk : a ∈ g.values
  · obtain ⟨p, hp, he⟩ := List.mem_map.mp hk
    have hpair : (p.2, p.1) ∈ g.inverse.mapping := by
      rw [inverse_mapping hv]
      exact List.mem_map.mpr ⟨p, hp, rfl⟩
    have hia : g.inverse.get a = p.1 := by
      rw [← he]
      exact dget_eq_of_mem (g.WF_inverse) hpair
    rw [hia]
    have : g.get p.1 = p.2 := dget_eq_of_mem hg.1 (by simpa using hp)
    rw [this, he]
  · have hnk : a ∉ g.keys := fun hc =>
      hk ((mem_keys_iff_mem_values hg.2).mp hc)
    rw [get_of_not_mem_keys (g := g.inverse) (by rw [keys_inverse hv]; exact hk),
      get_of_not_mem_keys hnk]

theorem get_injective {g : Perm α} (hg : g.Valid) :
    Function.Injective g.get :=
  Function.LeftInverse.injective (g := g.inverse.get)
    (fun a => inverse_get_get hg a)

/-- The source equality test agrees with pointwise semantic equality for
genuine dictionaries. -/
theorem eqv_iff {g h : Perm α} (hg : g.WF) (hh : h.WF) :
    g.eqv h = true ↔ ∀ a, g.get a = h.get a := by
  unfold eqv
  simp only [Bool.and_eq_true, List.all_eq_true, beq_iff_eq]
  constructor
  · rintro ⟨h1, h2⟩ a
    by_cases hk : a ∈ g.keys
    · obtain ⟨p, hp, he⟩ := List.mem_map.mp hk
      have : g.get a = p.2 := by
        rw [← he]
        exact dget_eq_of_mem hg (by simpa using hp)
      rw [this, h1 p hp, ← he]
    · by_cases hk2 : a ∈ h.keys
      · obtain ⟨p, hp, he⟩ := List.mem_map.mp hk2
        have : h.get a = p.2 := by
          rw [← he]
          exact dget_eq_of_mem hh (by simpa using hp)
        rw [this, h2 p hp, ← he]
      · rw [get_of_not_mem_keys hk, get_of_not_mem_keys hk2]
  · intro hpt
    constructor
    · intro p hp
      have : g.get p.1 = p.2 := dget_eq_of_mem hg (by simpa using hp)
      rw [← this, hpt p.1]
    · intro p hp
      have : h.get p.1 = p.2 := dget_eq_of_mem hh (by simpa using hp)
      rw [← this, hpt p.1]

theorem valid_id : (⟨[]⟩ : Perm α).Valid := by
  refine ⟨WF_id, ?_⟩
  simp [is_permutation, keys, values]

theorem map_toFinset_self {K : List α} (hnd : K.Nodup) {F : α → α}
    (hinj : Function.Injective F) (hmaps : ∀ a ∈ K, F a ∈ K) :
    (K.map F).toFinset = K.toFinset := by
  apply Finset.eq_of_subset_of_card_le
  · intro x hx
    simp only [List.mem_toFinset, List.mem_map] at hx ⊢
    obtain ⟨a, ha, rfl⟩ := hx
    exact hmaps a ha
  · rw [List.toFinset_card_of_nodup hnd,
      List.toFinset_card_of_nodup (hnd.map hinj), List.length_map]

/-- Composition of valid permutations is valid: the composed map is a
bijection of the union of the explicit domains. -/
theorem valid_mul {g h : Perm α} (hg : g.Valid) (hh : h.Valid) :
    (g.mul h).Valid := by
  refine ⟨WF_mul g h, ?_⟩
  apply decide_eq_true
  have hvals : (g.mul h).values
      = (g.unionKeys h).map (fun a => g.get (h.get a)) := by
    simp [values, mul, List.map_map, Function.comp_def]
  rw [keys_mul, hvals]
  have hnd : (g.unionKeys h).Nodup := (g.keys ++ h.keys).nodup_dedup
  have hinj : Function.Injective (fun a => g.get (h.get a)) :=
    (get_injective hg).comp (get_injective hh)
  have hmaps : ∀ a ∈ g.unionKeys h, g.get (h.get a) ∈ g.unionKeys h := by
    intro a ha
    have hb : h.get a ∈ g.unionKeys h := by
      by_cases hk : a ∈ h.keys
      · exact mem_unionKeys.mpr (Or.inr
          ((mem_keys_iff_mem_values hh.2).mpr (get_mem_values hk)))
      · rwa [get_of_not_mem_keys hk]
    by_cases hk : h.get a ∈ g.keys
    · exact mem_unionKeys.mpr (Or.inl
        ((mem_keys_iff_mem_values hg.2).mpr (get_mem_values hk)))
    · rwa [get_of_not_mem_keys hk]
  exact (map_toFinset_self hnd hinj hmaps).symm

/-!  ### Semantics of exponentiation  -/

theorem iterate_congr {f g : α → α} (h : ∀ x, f x = g x) :
    ∀ (n : Nat) (x : α), f^[n] x = g^[n] x := by
  intro n
  induction n with
  | zero => intro x; rfl
  | succ n ih =>
      intro x
      rw [Function.iterate_succ_apply, Function.iterate_succ_apply, h x,
        ih (g x)]

/-- Exponentiation by squaring computes the iterated application of the
permutation. -/
theorem get_powNat :
    ∀ (n : Nat) (g : Perm α) (a : α), (g.powNat n).get a = g.get^[n] a := by
  intro n
  induction n using Nat.strong_induction_on with
  | _ n ih =>
      match n with
      | 0 => intro g a; simp [powNat, get, dget]
      | 1 => intro g a; simp [powNat]
      | 2 =>
          intro g a
          have h2 : g.get^[2] a = g.get (g.get a) := by
            rw [show (2 : Nat) = 1 + 1 from rfl,
              Function.iterate_add_apply, Function.iterate_one]
          simp [powNat, get_mul, h2]
      | n + 3 =>
          intro g a
          have ihm := ih ((n + 3) / 2) (by omega) g
          have key : ∀ (k : Nat) (x : α), g.get (g.get^[k] x)
              = g.get^[k + 1] x :=
            fun k x => (Function.iterate_succ_apply' g.get k x).symm
          simp only [powNat]
          by_cases hodd : (n + 3) % 2 = 1
          · rw [if_pos hodd, get_mul, get_mul, ihm, ihm, ←
              Function.iterate_add_apply, key,
              show (n + 3) / 2 + (n + 3) / 2 + 1 = n + 3 by omega]
          · rw [if_neg hodd, get_mul, ihm, ihm, ←
              Function.iterate_add_apply,
              show (n + 3) / 2 + (n + 3) / 2 = n + 3 by omega]

theorem get_iterPow (g : Perm α) :
    ∀ (n : Nat) (a : α), (g.iterPow n).get a = g.get^[n] a := by
  intro n
  induction n with
  | zero => intro a; rfl
  | succ n ih =>
      intro a
      simp only [iterPow]
      rw [get_mul, ih, Function.iterate_succ_apply']

theorem WF_powNat (g : Perm α) (hg : g.WF) : ∀ n, (g.powNat n).WF := by
  intro n
  match n with
  | 0 => simp only [powNat]; exact WF_id
  | 1 => simp only [powNat]; exact hg
  | 2 => simp only [powNat]; exact WF_mul g g
  | n + 3 =>
      simp only [powNat]
      by_cases hodd : (n + 3) % 2 = 1
      · rw [if_pos hodd]
        exact WF_mul _ _
      · rw [if_neg hodd]
        exact WF_mul _ _

theorem WF_iterPow (g : Perm α) : ∀ n, (g.iterPow n).WF := by
  intro n
  cases n with
  | zero => exact WF_id
  | succ n => exact WF_mul _ _

theorem valid_powNat {g : Perm α} (hg : g.Valid) :
    ∀ n, (g.powNat n).Valid := by
  intro n
  induction n using Nat.strong_induction_on with
  | _ n ih =>
      match n with
      | 0 => simp only [powNat]; exact valid_id
      | 1 => simp only [powNat]; exact hg
      | 2 => simp only [powNat]; exact valid_mul hg hg
      | n + 3 =>
          have ihm := ih ((n + 3) / 2) (by omega)
          simp only [powNat]
          by_cases hodd : (n + 3) % 2 = 1
          · rw [if_pos hodd]
            exact valid_mul hg (valid_mul ihm ihm)
          · rw [if_neg hodd]
            exact valid_mul ihm ihm

theorem iterate_inverse_cancel {g : Perm α} (hg : g.Valid) :
    ∀ (n : Nat) (x : α), g.inverse.get^[n] (g.get^[n] x) = x := by
  intro n
  induction n with
  | zero => intro x; rfl
  | succ n ih =>
      intro x
      rw [Function.iterate_succ_apply' (f := g.get),
        Function.iterate_succ_apply (f := g.inverse.get),
        inverse_get_get hg, ih]

/-!  ### Orbits of a valid permutation  -/

theorem get_mem_keys {g : Perm α} (hg : g.Valid) {a : α} (ha : a ∈ g.keys) :
    g.get a ∈ g.keys :=
  (mem_keys_iff_mem_values hg.2).mpr (get_mem_values ha)

theorem iterate_get_mem_keys {g : Perm α} (hg : g.Valid) {a : α}
    (ha : a ∈ g.keys) : ∀ i : Nat, g.get^[i] a ∈ g.keys := by
  intro i
  induction i with
  | zero => exact ha
  | succ i ih =>
      rw [Function.iterate_succ_apply']
      exact get_mem_keys hg ih

/-- Every explicit key of a valid permutation is a periodic point of the
permutation map: some positive iterate, at most the number of keys, is the
identity on it. -/
theorem exists_period {g : Perm α} (hg : g.Valid) {a : α}
    (ha : a ∈ g.keys) :
    ∃ r, (0 < r ∧ g.get^[r] a = a) ∧ r ≤ g.keys.length := by
  have hcard : g.keys.toFinset.card < (Finset.range (g.keys.length + 1)).card := by
    rw [List.toFinset_card_of_nodup hg.1, Finset.card_range]
    omega
  have hmaps : ∀ i ∈ Finset.range (g.keys.length + 1),
      g.get^[i] a ∈ g.keys.toFinset := by
    intro i _
    exact List.mem_toFinset.mpr (iterate_get_mem_keys hg ha i)
  obtain ⟨i, hi, j, hj, hij, heq⟩ :=
    Finset.exists_ne_map_eq_of_card_lt_of_maps_to hcard hmaps
  rcases Nat.lt_or_ge i j with hlt | hge
  · refine ⟨j - i, ⟨by omega, ?_⟩, by simp at hj; omega⟩
    have : g.get^[i] (g.get^[j - i] a) = g.get^[i] a := by
      rw [← Function.iterate_add_apply, show i + (j - i) = j by omega, heq]
    exact (get_injective hg).iterate i this
  · have hlt : j < i := by omega
    refine ⟨i - j, ⟨by omega, ?_⟩, by simp at hi; omega⟩
    have : g.get^[j] (g.get^[i - j] a) = g.get^[j] a := by
      rw [← Function.iterate_add_apply, show j + (i - j) = i by omega, heq]
    exact (get_injective hg).iterate j this

theorem minimalPeriod_pos {g : Perm α} (hg : g.Valid) {a : α}
    (ha : a ∈ g.keys) : 0 < Function.minimalPeriod g.get a := by
  obtain ⟨r, ⟨hr0, hr⟩, _⟩ := exists_period hg ha
  exact Function.IsPeriodicPt.minimalPeriod_pos hr0 hr

theorem minimalPeriod_le {g : Perm α} (hg : g.Valid) {a : α}
    (ha : a ∈ g.keys) : Function.minimalPeriod g.get a ≤ g.keys.length := by
  obtain ⟨r, ⟨hr0, hr⟩, hle⟩ := exists_period hg ha
  exact le_trans (Function.IsPeriodicPt.minimalPeriod_le hr0 hr) hle

/-- The inner while loop collects the iterates of `a` strictly between the
head and the return to `a`, provided the fuel covers the period. -/
theorem orbitGo_eq (g : Perm α) (a : α) {r : Nat}
    (hr : g.get^[r] a = a)
    (hleast : ∀ m, 0 < m → m < r → g.get^[m] a ≠ a) :
    ∀ (fuel k : Nat), 0 < k → k ≤ r → r - k ≤ fuel →
      g.orbitGo a (g.get^[k] a) fuel
        = (List.range (r - k)).map (fun i => g.get^[k + i] a) := by
  intro fuel
  induction fuel with
  | zero =>
      intro k hk0 hkr hfuel
      have : r - k = 0 := by omega
      rw [this]
      have : g.get^[k] a = g.get^[r] a := by
        congr 1
        omega
      rw [this, hr]
      simp [Perm.orbitGo]
  | succ fuel ih =>
      intro k hk0 hkr hfuel
      by_cases hkeq : k = r
      · subst hkeq
        rw [hr]
        simp [Perm.orbitGo]
      · have hklt : k < r := by omega
        have hne : g.get^[k] a ≠ a := hleast k hk0 hklt
        rw [Perm.orbitGo, if_neg hne]
        have hstep : g.get (g.get^[k] a) = g.get^[k + 1] a :=
          (Function.iterate_succ_apply' g.get k a).symm
        rw [hstep, ih (k + 1) (by omega) (by omega) (by omega)]
        rw [show r - k = (r - (k + 1)) + 1 by omega, List.range_succ_eq_map]
        simp only [List.map_cons, Nat.add_zero, List.map_map]
        refine congrArg₂ _ rfl ?_
        apply List.map_congr_left
        intro i _
        simp only [Function.comp_apply]
        congr 1
        omega

/-- For a key of a valid permutation, the collected cycle is exactly the
orbit of the key, listed as the iterates below the minimal period. -/
theorem orbit_eq {g : Perm α} (hg : g.Valid) {a : α} (ha : a ∈ g.keys) :
    g.orbit a = (List.range (Function.minimalPeriod g.get a)).map
      (fun i => g.get^[i] a) := by
  have hpos := minimalPeriod_pos hg ha
  have hper : g.get^[Function.minimalPeriod g.get a] a = a :=
    Function.iterate_minimalPeriod
  have hleast : ∀ m, 0 < m → m < Function.minimalPeriod g.get a →
      g.get^[m] a ≠ a := by
    intro m hm0 hmlt
    exact Function.not_isPeriodicPt_of_pos_of_lt_minimalPeriod
      (by omega) hmlt
  unfold Perm.orbit
  have h1 : g.get a = g.get^[1] a := (Function.iterate_one g.get).symm ▸ rfl
  rw [show g.get a = g.get^[1] a from by simp,
    orbitGo_eq g a hper hleast g.mapping.length 1 (by omega) (by omega)
      (by rw [← length_keys]; have := minimalPeriod_le hg ha; omega)]
  rw [show Function.minimalPeriod g.get a
      = (Function.minimalPeriod g.get a - 1) + 1 by omega,
    List.range_succ_eq_map]
  simp only [List.map_cons, Function.iterate_zero, id_eq, List.map_map]
  refine congrArg₂ _ rfl ?_
  apply List.map_congr_left
  intro i _
  simp only [Function.comp_apply]
  congr 1
  omega

theorem self_mem_orbit (g : Perm α) (a : α) : a ∈ g.orbit a :=
  List.mem_cons_self a _

theorem mem_orbit_iff {g : Perm α} (hg : g.Valid) {a : α}
    (ha : a ∈ g.keys) {x : α} :
    x ∈ g.orbit a ↔ ∃ i, g.get^[i] a = x := by
  rw [orbit_eq hg ha]
  simp only [List.mem_map, List.mem_range]
  constructor
  · rintro ⟨i, _, rfl⟩
    exact ⟨i, rfl⟩
  · rintro ⟨i, rfl⟩
    exact ⟨i % Function.minimalPeriod g.get a,
      Nat.mod_lt _ (minimalPeriod_pos hg ha),
      Function.iterate_mod_minimalPeriod_eq⟩

theorem orbit_nodup {g : Perm α} (hg : g.Valid) {a : α}
    (ha : a ∈ g.keys) : (g.orbit a).Nodup := by
  rw [orbit_eq hg ha]
  refine List.Nodup.map_on ?_ (List.nodup_range _)
  intro i hi j hj heq
  simp only [List.mem_range] at hi hj
  by_contra hne
  rcases Nat.lt_or_ge i j with hlt | hge
  · have : g.get^[i] (g.get^[j - i] a) = g.get^[i] a := by
      rw [← Function.iterate_add_apply, show i + (j - i) = j by omega, heq]
    have hper := (get_injective hg).iterate i this
    exact Function.not_isPeriodicPt_of_pos_of_lt_minimalPeriod
      (n := j - i) (by omega) (by omega) hper
  · have hlt : j < i := by omega
    have : g.get^[j] (g.get^[i - j] a) = g.get^[j] a := by
      rw [← Function.iterate_add_apply, show j + (i - j) = i by omega, heq]
    have hper := (get_injective hg).iterate j this
    exact Function.not_isPeriodicPt_of_pos_of_lt_minimalPeriod
      (n := i - j) (by omega) (by omega) hper

theorem orbit_subset_keys {g : Perm α} (hg : g.Valid) {a : α}
    (ha : a ∈ g.keys) {x : α} (hx : x ∈ g.orbit a) : x ∈ g.keys := by
  obtain ⟨i, rfl⟩ := (mem_orbit_iff hg ha).mp hx
  exact iterate_get_mem_keys hg ha i

theorem get_mem_orbit {g : Perm α} (hg : g.Valid) {a : α}
    (ha : a ∈ g.keys) {x : α} (hx : x ∈ g.orbit a) :
    g.get x ∈ g.orbit a := by
  rw [mem_orbit_iff hg ha] at hx ⊢
  obtain ⟨i, rfl⟩ := hx
  exact ⟨i + 1, Function.iterate_succ_apply' g.get i a⟩

/-- Orbits through a common point coincide as sets. -/
theorem mem_orbit_trans {g : Perm α} (hg : g.Valid) {a x : α}
    (ha : a ∈ g.keys) (hx : x ∈ g.orbit a) :
    ∀ y, y ∈ g.orbit x ↔ y ∈ g.orbit a := by
  have hxk : x ∈ g.keys := orbit_subset_keys hg ha hx
  obtain ⟨i, rfl⟩ := (mem_orbit_iff hg ha).mp hx
  intro y
  rw [mem_orbit_iff hg hxk, mem_orbit_iff hg ha]
  constructor
  · rintro ⟨j, rfl⟩
    exact ⟨j + i, Function.iterate_add_apply g.get j i a⟩
  · rintro ⟨m, rfl⟩
    set r := Function.minimalPeriod g.get a with hrdef
    have hpos := minimalPeriod_pos hg ha
    have hper : Function.IsPeriodicPt g.get r a :=
      Function.iterate_minimalPeriod
    refine ⟨m + r * (i + 1) - i, ?_⟩
    have harith : m + r * (i + 1) - i + i = m + r * (i + 1) := by
      have : i < r * (i + 1) := by
        calc i < i + 1 := by omega
        _ ≤ r * (i + 1) := by nlinarith
      omega
    rw [← Function.iterate_add_apply, harith, Function.iterate_add_apply]
    congr 1
    exact hper.mul_const (i + 1)

theorem one_lt_orbit_length_iff {g : Perm α} (hg : g.Valid) {a : α}
    (ha : a ∈ g.keys) : 1 < (g.orbit a).length ↔ g.get a ≠ a := by
  have hpos := minimalPeriod_pos hg ha
  rw [orbit_eq hg ha, List.length_map, List.length_range]
  constructor
  · intro h1 hfix
    have : Function.IsPeriodicPt g.get 1 a := by
      simpa [Function.IsPeriodicPt, Function.IsFixedPt] using hfix
    have := Function.IsPeriodicPt.minimalPeriod_le (by omega) this
    omega
  · intro hne
    rcases Nat.lt_or_ge 1 (Function.minimalPeriod g.get a) with h | h
    · exact h
    · exfalso
      apply hne
      have h1 : Function.minimalPeriod g.get a = 1 := by omega
      have := Function.iterate_minimalPeriod (f := g.get) (x := a)
      rwa [h1, Function.iterate_one] at this

theorem orbit_mem_not_fixed {g : Perm α} (hg : g.Valid) {a : α}
    (ha : a ∈ g.keys) (h1 : 1 < (g.orbit a).length) {x : α}
    (hx : x ∈ g.orbit a) : g.get x ≠ x := by
  intro hfix
  have hxk : x ∈ g.keys := orbit_subset_keys hg ha hx
  have hax : a ∈ g.orbit x :=
    (mem_orbit_trans hg ha hx a).mpr (self_mem_orbit g a)
  obtain ⟨i, hia⟩ := (mem_orbit_iff hg hxk).mp hax
  have hxa : x = a := by
    rw [← hia, Function.iterate_fixed hfix]
  have := (one_lt_orbit_length_iff hg ha).mp h1
  rw [← hxa] at this
  exact this hfix

theorem orbit_eq_singleton {g : Perm α} {a : α}
    (h : ¬1 < (g.orbit a).length) : g.orbit a = [a] := by
  unfold Perm.orbit at h ⊢
  rcases hgo : g.orbitGo a (g.get a) g.mapping.length with _ | ⟨b, bs⟩
  · rfl
  · rw [hgo] at h
    simp at h

/-!  ### Rebuilding a permutation from its cycles  -/

theorem cyclePairs_map_fst (l : List α) :
    (cyclePairs l).map Prod.fst = l := by
  cases l with
  | nil => rfl
  | cons x xs =>
      show ((x :: xs).zip (xs ++ [x])).map Prod.fst = x :: xs
      apply List.map_fst_zip
      simp

theorem cyclePairs_length (l : List α) : (cyclePairs l).length = l.length := by
  cases l with
  | nil => rfl
  | cons x xs =>
      show ((x :: xs).zip (xs ++ [x])).length = (x :: xs).length
      simp

/-- With distinct cycle symbols, the dictionary built by `from_cycle` is
the consecutive-pair list itself. -/
theorem from_cycle_mapping {l : List α} (h : l.Nodup) :
    (from_cycle l).mapping = cyclePairs l := by
  show (cyclePairs l).foldl (fun m p => dinsert m p.1 p.2) [] = cyclePairs l
  rw [foldl_dinsert_eq_append _ (by rw [cyclePairs_map_fst]; exact h) []
    (by simp)]
  simp

theorem keys_from_cycle {l : List α} (h : l.Nodup) :
    (from_cycle l).keys = l := by
  unfold keys
  rw [from_cycle_mapping h, cyclePairs_map_fst]

/-- The element of `cyclePairs l` at index `i` is
`(l[i], l[(i+1) % len l])`, matching the construction loop of
`from_cycle`. -/
theorem cyclePairs_getElem {l : List α} {i : Nat} (hi : i < l.length)
    (hlen : i < (cyclePairs l).length)
    (hmod : (i + 1) % l.length < l.length) :
    (cyclePairs l)[i] = (l[i], l[(i + 1) % l.length]) := by
  cases l with
  | nil => simp at hi
  | cons x xs =>
      simp only [cyclePairs]
      rw [List.getElem_zip]
      refine congrArg₂ _ rfl ?_
      rcases Nat.lt_or_ge i xs.length with hlt | hge
      · rw [List.getElem_append_left hlt]
        have hmod : (i + 1) % (x :: xs).length = i + 1 := by
          apply Nat.mod_eq_of_lt
          simp only [List.length_cons]
          omega
        simp only [hmod]
        simp [List.getElem_cons_succ]
      · have hieq : i = xs.length := by
          simp only [List.length_cons] at hi
          omega
        subst hieq
        have hmod : (xs.length + 1) % (x :: xs).length = 0 := by
          simp [List.length_cons]
        rw [List.getElem_append_right (by omega)]
        simp [hmod]

/-- Every consecutive pair of the collected orbit is an application pair of
the permutation: the successor of each cycle element, wrapping around, is
its image. -/
theorem cyclePairs_orbit_snd {g : Perm α} (hg : g.Valid) {a : α}
    (ha : a ∈ g.keys) {p : α × α} (hp : p ∈ cyclePairs (g.orbit a)) :
    p.2 = g.get p.1 := by
  obtain ⟨i, hi, hpi⟩ := List.mem_iff_getElem.mp hp
  set r := Function.minimalPeriod g.get a with hrdef
  have hpos := minimalPeriod_pos hg ha
  have hlen : (g.orbit a).length = r := by
    rw [orbit_eq hg ha]
    simp
  have hir : i < r := by
    rw [cyclePairs_length, hlen] at hi
    exact hi
  have horb : ∀ (j : Nat) (hj : j < (g.orbit a).length),
      (g.orbit a)[j] = g.get^[j] a := by
    intro j hj
    have hj' : j < r := by rwa [hlen] at hj
    simp only [orbit_eq hg ha]
    rw [List.getElem_map, List.getElem_range]
  rw [cyclePairs_getElem (by omega : i < (g.orbit a).length) hi
    (Nat.mod_lt _ (by omega))] at hpi
  rw [← hpi]
  simp only [horb]
  rw [hlen]
  have hstep : g.get (g.get^[i] a) = g.get^[i + 1] a :=
    (Function.iterate_succ_apply' g.get i a).symm
  rcases Nat.lt_or_ge (i + 1) r with hlt | hge
  · rw [Nat.mod_eq_of_lt hlt, Function.iterate_succ_apply']
  · have hieq : i + 1 = r := by omega
    rw [hieq, Nat.mod_self]
    simp only [Function.iterate_zero, id_eq]
    rw [hstep, hieq]
    exact (Function.iterate_minimalPeriod (f := g.get) (x := a)).symm

theorem mem_cyclePairs_orbit {g : Perm α} (hg : g.Valid) {a : α}
    (ha : a ∈ g.keys) {x : α} (hx : x ∈ g.orbit a) :
    (x, g.get x) ∈ cyclePairs (g.orbit a) := by
  obtain ⟨i, hi, hxi⟩ := List.mem_iff_getElem.mp hx
  have hi2 : i < (cyclePairs (g.orbit a)).length := by
    rw [cyclePairs_length]
    exact hi
  have hmod : (i + 1) % (g.orbit a).length < (g.orbit a).length :=
    Nat.mod_lt _ (by omega)
  have hmem := List.getElem_mem hi2
  rw [cyclePairs_getElem hi hi2 hmod] at hmem
  have hsnd : (g.orbit a)[(i + 1) % (g.orbit a).length] = g.get x := by
    have hpair := cyclePairs_orbit_snd hg ha hmem
    simp only at hpair
    rw [hpair, hxi]
  rw [hxi, hsnd] at hmem
  exact hmem

/-- On an orbit cycle, the rebuilt permutation acts exactly like the
original permutation; off the cycle it is the identity. -/
theorem get_from_cycle_orbit {g : Perm α} (hg : g.Valid) {a : α}
    (ha : a ∈ g.keys) (x : α) :
    (from_cycle (g.orbit a)).get x
      = if x ∈ g.orbit a then g.get x else x := by
  have hnd := orbit_nodup hg ha
  by_cases hx : x ∈ g.orbit a
  · rw [if_pos hx]
    have hWF : ((from_cycle (g.orbit a)).mapping.map Prod.fst).Nodup := by
      rw [from_cycle_mapping hnd, cyclePairs_map_fst]
      exact hnd
    apply dget_eq_of_mem hWF
    rw [from_cycle_mapping hnd]
    exact mem_cyclePairs_orbit hg ha hx
  · rw [if_neg hx]
    apply get_of_not_mem_keys
    rw [keys_from_cycle hnd]
    exact hx

theorem cycleProd_cons (c : List α) (cs : List (List α)) :
    cycleProd (c :: cs) = (from_cycle c).mul (cycleProd cs) := rfl

theorem WF_cycleProd (cs : List (List α)) : (cycleProd cs).WF := by
  cases cs with
  | nil => exact WF_id
  | cons c cs => exact WF_mul _ _

/-- Invariant of the outer decomposition loop: run on a duplicate-free,
orbit-closed subset of the explicit domain, it returns the orbits of more
than one element, covering exactly the non-fixed symbols of the subset,
pairwise disjointly, and their cycle product acts as the permutation on
the subset and as the identity elsewhere. -/
theorem dcdGo_spec (g : Perm α) (hg : g.Valid) :
    ∀ (n : Nat) (todo : List α), todo.length ≤ n → todo.Nodup →
      (∀ x ∈ todo, x ∈ g.keys) →
      (∀ x ∈ todo, ∀ y ∈ g.orbit x, y ∈ todo) →
      (∀ c ∈ g.dcdGo todo, (∃ x ∈ todo, c = g.orbit x) ∧ 1 < c.length)
        ∧ (∀ y, (∃ c ∈ g.dcdGo todo, y ∈ c) ↔ y ∈ todo ∧ g.get y ≠ y)
        ∧ List.Pairwise (fun c d => ∀ y ∈ c, y ∉ d) (g.dcdGo todo)
        ∧ ∀ x, (cycleProd (g.dcdGo todo)).get x
            = if x ∈ todo then g.get x else x := by
  intro n
  induction n with
  | zero =>
      intro todo hlen _ _ _
      have : todo = [] := List.eq_nil_of_length_eq_zero (by omega)
      subst this
      simp only [Perm.dcdGo]
      refine ⟨by simp, by simp, List.Pairwise.nil, fun x => by
        simp [cycleProd, get_id]⟩
  | succ n ih =>
      intro todo hlen hnd hsub hclosed
      cases todo with
      | nil =>
          simp only [Perm.dcdGo]
          refine ⟨by simp, by simp, List.Pairwise.nil, fun x => by
            simp [cycleProd, get_id]⟩
      | cons a rest =>
          have hdcd : g.dcdGo (a :: rest)
              = if 1 < (g.orbit a).length
                then g.orbit a
                  :: g.dcdGo (rest.filter (fun x => decide (x ∉ g.orbit a)))
                else g.dcdGo
                  (rest.filter (fun x => decide (x ∉ g.orbit a))) := by
            simp only [Perm.dcdGo]
          have hak : a ∈ g.keys := hsub a (List.mem_cons_self a rest)
          have hanr : a ∉ rest := (List.nodup_cons.mp hnd).1
          have hrestnd : rest.Nodup := (List.nodup_cons.mp hnd).2
          have hcsub : ∀ y ∈ g.orbit a, y ∈ a :: rest :=
            hclosed a (List.mem_cons_self a rest)
          have hr2mem : ∀ {x : α},
              x ∈ rest.filter (fun x => decide (x ∉ g.orbit a))
                ↔ x ∈ rest ∧ x ∉ g.orbit a := by
            intro x
            rw [List.mem_filter]
            simp
          by_cases h1 : 1 < (g.orbit a).length
          · -- a genuine cycle is collected
            have hr2nd : (rest.filter
                (fun x => decide (x ∉ g.orbit a))).Nodup :=
              hrestnd.filter _
            have hr2sub : ∀ x ∈ rest.filter
                (fun x => decide (x ∉ g.orbit a)), x ∈ g.keys :=
              fun x hx => hsub x (List.mem_cons_of_mem a (hr2mem.mp hx).1)
            have hr2closed : ∀ x ∈ rest.filter
                  (fun x => decide (x ∉ g.orbit a)),
                ∀ y ∈ g.orbit x,
                  y ∈ rest.filter (fun x => decide (x ∉ g.orbit a)) := by
              intro x hx y hy
              obtain ⟨hxr, hxnc⟩ := hr2mem.mp hx
              have hxk : x ∈ g.keys := hsub x (List.mem_cons_of_mem a hxr)
              have hyt : y ∈ a :: rest :=
                hclosed x (List.mem_cons_of_mem a hxr) y hy
              have hync : y ∉ g.orbit a := by
                intro hyc
                have htr1 := mem_orbit_trans hg hxk hy
                have htr2 := mem_orbit_trans hg hak hyc
                exact hxnc ((htr2 x).mp ((htr1 x).mpr (self_mem_orbit g x)))
              have hyr : y ∈ rest := by
                rcases List.mem_cons.mp hyt with rfl | hyr
                · exact absurd (self_mem_orbit g y) hync
                · exact hyr
              exact hr2mem.mpr ⟨hyr, hync⟩
            have hr2len : (rest.filter
                (fun x => decide (x ∉ g.orbit a))).length ≤ n := by
              have := List.length_filter_le
                (fun x => decide (x ∉ g.orbit a)) rest
              simp only [List.length_cons] at hlen
              omega
            obtain ⟨ihR1, ihR2, ihR3, ihR4⟩ :=
              ih _ hr2len hr2nd hr2sub hr2closed
            rw [hdcd, if_pos h1]
            refine ⟨?_, ?_, ?_, ?_⟩
            · intro c' hc'
              rcases List.mem_cons.mp hc' with rfl | hc2
              · exact ⟨⟨a, List.mem_cons_self a rest, rfl⟩, h1⟩
              · obtain ⟨⟨x, hx, rfl⟩, hlen'⟩ := ihR1 c' hc2
                exact ⟨⟨x, List.mem_cons_of_mem a (hr2mem.mp hx).1, rfl⟩,
                  hlen'⟩
            · intro y
              constructor
              · rintro ⟨c', hc', hyc⟩
                rcases List.mem_cons.mp hc' with rfl | hc2
                · exact ⟨hcsub y hyc, orbit_mem_not_fixed hg hak h1 hyc⟩
                · obtain ⟨hy2, hyne⟩ := (ihR2 y).mp ⟨c', hc2, hyc⟩
                  exact ⟨List.mem_cons_of_mem a (hr2mem.mp hy2).1, hyne⟩
              · rintro ⟨hyt, hyne⟩
                by_cases hyc : y ∈ g.orbit a
                · exact ⟨g.orbit a, List.mem_cons_self _ _, hyc⟩
                · have hyr : y ∈ rest := by
                    rcases List.mem_cons.mp hyt with rfl | hyr
                    · exact absurd (self_mem_orbit g y) hyc
                    · exact hyr
                  obtain ⟨c', hc', hyc'⟩ :=
                    (ihR2 y).mpr ⟨hr2mem.mpr ⟨hyr, hyc⟩, hyne⟩
                  exact ⟨c', List.mem_cons_of_mem _ hc', hyc'⟩
            · rw [List.pairwise_cons]
              refine ⟨?_, ihR3⟩
              intro d hd y hy hyd
              have hy2 := (ihR2 y).mp ⟨d, hd, hyd⟩
              exact (hr2mem.mp hy2.1).2 hy
            · intro x
              rw [cycleProd_cons, get_mul, ihR4 x]
              by_cases hx2 : x ∈ rest.filter (fun x => decide (x ∉ g.orbit a))
              · rw [if_pos hx2,
                  if_pos (List.mem_cons_of_mem a (hr2mem.mp hx2).1)]
                have hxk := hr2sub x hx2
                have hgx2 := hr2closed x hx2 (g.get x)
                  (get_mem_orbit hg hxk (self_mem_orbit g x))
                rw [get_from_cycle_orbit hg hak,
                  if_neg (hr2mem.mp hgx2).2]
              · rw [if_neg hx2]
                by_cases hxc : x ∈ g.orbit a
                · rw [get_from_cycle_orbit hg hak, if_pos hxc,
                    if_pos (hcsub x hxc)]
                · rw [get_from_cycle_orbit hg hak, if_neg hxc]
                  have hxt : x ∉ a :: rest := by
                    intro hxt
                    rcases List.mem_cons.mp hxt with rfl | hxr
                    · exact hxc (self_mem_orbit g x)
                    · exact hx2 (hr2mem.mpr ⟨hxr, hxc⟩)
                  rw [if_neg hxt]
          · -- a is a fixed point: its singleton orbit is dropped
            have hfix : g.get a = a := by
              have : ¬g.get a ≠ a :=
                fun hne => h1 ((one_lt_orbit_length_iff hg hak).mpr hne)
              exact not_ne_iff.mp this
            have hsingle : g.orbit a = [a] := orbit_eq_singleton h1
            have hrest2 : rest.filter (fun x => decide (x ∉ g.orbit a))
                = rest := by
              apply List.filter_eq_self.mpr
              intro x hx
              apply decide_eq_true
              rw [hsingle]
              simp only [List.mem_singleton]
              intro he
              exact hanr (he ▸ hx)
            have hrclosed : ∀ x ∈ rest, ∀ y ∈ g.orbit x, y ∈ rest := by
              intro x hx y hy
              have hxk := hsub x (List.mem_cons_of_mem a hx)
              have hyt := hclosed x (List.mem_cons_of_mem a hx) y hy
              rcases List.mem_cons.mp hyt with rfl | hyr
              · exfalso
                have hxo : x ∈ g.orbit y :=
                  (mem_orbit_trans hg hxk hy x).mpr (self_mem_orbit g x)
                rw [hsingle] at hxo
                simp only [List.mem_singleton] at hxo
                exact hanr (hxo ▸ hx)
              · exact hyr
            have hrlen : rest.length ≤ n := by
              simp only [List.length_cons] at hlen
              omega
            obtain ⟨ihR1, ihR2, ihR3, ihR4⟩ := ih rest hrlen hrestnd
              (fun x hx => hsub x (List.mem_cons_of_mem a hx)) hrclosed
            rw [hdcd, if_neg h1, hrest2]
            refine ⟨?_, ?_, ihR3, ?_⟩
            · intro c' hc'
              obtain ⟨⟨x, hx, rfl⟩, hlen'⟩ := ihR1 c' hc'
              exact ⟨⟨x, List.mem_cons_of_mem a hx, rfl⟩, hlen'⟩
            · intro y
              rw [ihR2 y]
              constructor
              · rintro ⟨hyr, hyne⟩
                exact ⟨List.mem_cons_of_mem a hyr, hyne⟩
              · rintro ⟨hyt, hyne⟩
                rcases List.mem_cons.mp hyt with rfl | hyr
                · exact absurd hfix hyne
                · exact ⟨hyr, hyne⟩
            · intro x
              rw [ihR4 x]
              by_cases hxa : x = a
              · subst hxa
                rw [if_neg hanr, if_pos (List.mem_cons_self x rest), hfix]
              · by_cases hxr : x ∈ rest
                · rw [if_pos hxr, if_pos (List.mem_cons_of_mem a hxr)]
                · rw [if_neg hxr, if_neg (by
                    intro hxt
                    rcases List.mem_cons.mp hxt with rfl | h
                    · exact hxa rfl
                    · exact hxr h)]

end Perm

/-- C4.  For every valid permutation g, composing g with its inverse gives
the identity permutation, and the inverse of the inverse of g is g, both
under the semantic equality `Perm.__eq__` that treats symbols outside the
explicit mapping as fixed. -/
theorem perm_inverse_laws (g : Perm α) (hg : g.Valid) :
    (g * g.inverse).eqv ⟨[]⟩ = true
      ∧ g.inverse.inverse.eqv g = true := by
  constructor
  · rw [Perm.mul_def, Perm.eqv_iff (Perm.WF_mul g g.inverse) Perm.WF_id]
    intro a
    rw [Perm.get_mul, Perm.get_inverse_get hg, Perm.get_id]
  · rw [Perm.eqv_iff (Perm.WF_inverse g.inverse) hg.1]
    intro a
    have h1 : g.inverse.get (g.get a) = a := Perm.inverse_get_get hg a
    have h2 : g.inverse.inverse.get (g.inverse.get (g.get a)) = g.get a :=
      Perm.inverse_get_get (Perm.valid_inverse hg) (g.get a)
    rw [h1] at h2
    exact h2

/-- Closed instance of `perm_inverse_laws` at the 3-cycle (A B C). -/
theorem perm_inverse_laws_witness :
    (Perm.from_cycle ['A', 'B', 'C'] : Perm Char).Valid
      ∧ ((Perm.from_cycle ['A', 'B', 'C'] : Perm Char)
            * (Perm.from_cycle ['A', 'B', 'C']).inverse).eqv ⟨[]⟩ = true
      ∧ (Perm.from_cycle ['A', 'B', 'C']
          : Perm Char).inverse.inverse.eqv
            (Perm.from_cycle ['A', 'B', 'C']) = true :=
  ⟨by decide,
    (perm_inverse_laws (Perm.from_cycle ['A', 'B', 'C']) (by decide)).1,
    (perm_inverse_laws (Perm.from_cycle ['A', 'B', 'C']) (by decide)).2⟩

/-- C5.  For every valid permutation g and every natural n, `g ** n` is
semantically equal to the n-fold iterated composition of g with itself
(the 0-fold product being the identity with empty explicit domain), and
`g ** (-n)` is semantically equal to `(g ** n).inverse()`. -/
theorem perm_pow_laws (g : Perm α) (hg : g.Valid) (n : Nat) :
    (g.pow (n : Int)).eqv (g.iterPow n) = true
      ∧ (g.pow (-(n : Int))).eqv ((g.pow (n : Int)).inverse) = true := by
  have hpow : g.pow (n : Int) = g.powNat n := by
    unfold Perm.pow
    rw [if_neg (by omega)]
    simp
  constructor
  · rw [hpow,
      Perm.eqv_iff (Perm.WF_powNat g hg.1 n) (Perm.WF_iterPow g n)]
    intro a
    rw [Perm.get_powNat, Perm.get_iterPow]
  · cases n with
    | zero =>
        have h0 : -((0 : Nat) : Int) = ((0 : Nat) : Int) := by simp
        rw [h0, hpow]
        simp only [Perm.powNat]
        rfl
    | succ k =>
        have hneg : g.pow (-((k + 1 : Nat) : Int))
            = g.inverse.powNat (k + 1) := by
          unfold Perm.pow
          rw [if_pos (by omega)]
          norm_num
        rw [hneg, hpow,
          Perm.eqv_iff (Perm.WF_powNat g.inverse (Perm.WF_inverse g) _)
            (Perm.WF_inverse _)]
        intro a
        have hXv : (g.powNat (k + 1)).Valid := Perm.valid_powNat hg (k + 1)
        have hFu : (g.powNat (k + 1)).get ((g.powNat (k + 1)).inverse.get a)
            = a := Perm.get_inverse_get hXv a
        calc (g.inverse.powNat (k + 1)).get a
            = g.inverse.get^[k + 1] a := Perm.get_powNat (k + 1) g.inverse a
          _ = g.inverse.get^[k + 1]
                ((g.powNat (k + 1)).get
                  ((g.powNat (k + 1)).inverse.get a)) := by rw [hFu]
          _ = g.inverse.get^[k + 1]
                (g.get^[k + 1] ((g.powNat (k + 1)).inverse.get a)) := by
                  rw [Perm.get_powNat]
          _ = (g.powNat (k + 1)).inverse.get a :=
                Perm.iterate_inverse_cancel hg (k + 1) _

/-- Closed instance of `perm_pow_laws` at the 3-cycle (A B C) and n = 4. -/
theorem perm_pow_laws_witness :
    (Perm.from_cycle ['A', 'B', 'C'] : Perm Char).Valid
      ∧ ((Perm.from_cycle ['A', 'B', 'C'] : Perm Char).pow
            ((4 : Nat) : Int)).eqv
          ((Perm.from_cycle ['A', 'B', 'C']).iterPow 4) = true
      ∧ ((Perm.from_cycle ['A', 'B', 'C'] : Perm Char).pow
            (-((4 : Nat) : Int))).eqv
          (((Perm.from_cycle ['A', 'B', 'C']).pow
            ((4 : Nat) : Int)).inverse) = true :=
  ⟨by decide,
    (perm_pow_laws (Perm.from_cycle ['A', 'B', 'C']) (by decide) 4).1,
    (perm_pow_laws (Perm.from_cycle ['A', 'B', 'C']) (by decide) 4).2⟩

/-- C7.  For every valid permutation, the disjoint cycle decomposition
returns pairwise-disjoint cycles of length at least two whose elements are
exactly the non-fixed symbols of the explicit domain (fixed points never
appear), and the product of the permutations rebuilt from the cycles via
`from_cycle` is semantically equal to the original permutation. -/
theorem disjoint_cycle_decomposition_spec (g : Perm α) (hg : g.Valid) :
    (∀ c ∈ g.disjoint_cycle_decomposition, 2 ≤ c.length)
      ∧ List.Pairwise (fun c d => ∀ y ∈ c, y ∉ d)
          g.disjoint_cycle_decomposition
      ∧ (∀ y, (∃ c ∈ g.disjoint_cycle_decomposition, y ∈ c)
            ↔ y ∈ g.keys ∧ g.get y ≠ y)
      ∧ (Perm.cycleProd g.disjoint_cycle_decomposition).eqv g = true := by
  obtain ⟨R1, R2, R3, R4⟩ := Perm.dcdGo_spec g hg g.keys.length g.keys
    le_rfl hg.1 (fun x hx => hx)
    (fun x hx y hy => Perm.orbit_subset_keys hg hx hy)
  have hdef : g.disjoint_cycle_decomposition = g.dcdGo g.keys := rfl
  rw [hdef]
  refine ⟨fun c hc => ?_, R3, R2, ?_⟩
  · have := (R1 c hc).2
    omega
  · rw [Perm.eqv_iff (Perm.WF_cycleProd _) hg.1]
    intro x
    rw [R4 x]
    by_cases hx : x ∈ g.keys
    · rw [if_pos hx]
    · rw [if_neg hx, Perm.get_of_not_mem_keys hx]

/-- Closed instance of `disjoint_cycle_decomposition_spec` at the
permutation (A B)(D E F) with explicit fixed point C. -/
theorem disjoint_cycle_decomposition_spec_witness :
    dcdEx.Valid
      ∧ ((∀ c ∈ dcdEx.disjoint_cycle_decomposition, 2 ≤ c.length)
          ∧ List.Pairwise (fun c d => ∀ y ∈ c, y ∉ d)
              dcdEx.disjoint_cycle_decomposition
          ∧ (∀ y, (∃ c ∈ dcdEx.disjoint_cycle_decomposition, y ∈ c)
              ↔ y ∈ dcdEx.keys ∧ dcdEx.get y ≠ y)
          ∧ (Perm.cycleProd dcdEx.disjoint_cycle_decomposition).eqv dcdEx
              = true) :=
  ⟨by decide, disjoint_cycle_decomposition_spec dcdEx (by decide)⟩

/-- C6.  The explicit domain of a composition `g * h` is exactly the union
of the explicit domains of the operands: every symbol mentioned by either
appears as an explicit key of the result, even when its net effect is the
identity. -/
theorem mul_keys_union (g h : Perm α) :
    (g.mul h).keys.toFinset = g.keys.toFinset ∪ h.keys.toFinset
      ∧ ∀ a, a ∈ (g.mul h).keys ↔ a ∈ g.keys ∨ a ∈ h.keys := by
  have hk : (g.mul h).keys = g.unionKeys h := by
    simp [Perm.keys, Perm.mul, List.map_map, Function.comp_def]
  constructor
  · rw [hk]
    ext x
    simp [Perm.unionKeys]
  · intro a
    rw [hk]
    simp [Perm.unionKeys]

namespace CipherStreamer

/-!  ### Strip mode: configuration errors and the compare loop  -/

theorem get_lines_error_of (s : List Nat) {block width : Int}
    (h : 0 < block ∧ 0 < width ∧ width < block) :
    get_lines s block width = .error "ValueError: width should be >= block" := by
  unfold get_lines
  rw [if_pos ⟨lt_min_iff.mpr ⟨h.1, h.2.1⟩, h.2.2⟩]

theorem get_lines_ok_of (s : List Nat) {block width : Int}
    (h : ¬(0 < block ∧ 0 < width ∧ width < block)) :
    ∃ ls, get_lines s block width = .ok ls := by
  unfold get_lines
  rw [if_neg]
  · exact ⟨_, rfl⟩
  · simp only [gt_iff_lt, lt_min_iff]
    tauto

/-- The write loop itself never raises the configuration error: its only
failure is the `TypeError` of joining a missing line. -/
theorem stripZip_ne_valueerror (cmp : Bool) :
    ∀ ls ps : List (List Nat),
      stripZip cmp ls ps ≠ Except.error "ValueError: width should be >= block" := by
  intro ls
  induction ls with
  | nil =>
      intro ps
      cases ps <;> simp [stripZip]
  | cons l ls ih =>
      intro ps
      cases ps with
      | nil =>
          rw [stripZip]
          cases h : stripZip cmp ls [] with
          | error e =>
              have := ih []
              rw [h] at this
              simpa using fun he => this (by rw [he])
          | ok rest => simp
      | cons p ps =>
          rw [stripZip]
          cases h : stripZip cmp ls ps with
          | error e =>
              have := ih ps
              rw [h] at this
              simpa using fun he => this (by rw [he])
          | ok rest => simp

/-- C8.  Strip mode raises the configuration error exactly when both sizes
are positive and `width < block`; the error is raised by `get_lines` before
the write loop produces anything, and the configuration is never silently
corrected. -/
theorem strip_config_error_iff (t : List Nat → List Nat) (input : List Nat)
    (block width : Int) (cmp : Bool) :
    stripRun t input block width cmp
        = Except.error "ValueError: width should be >= block"
      ↔ 0 < block ∧ 0 < width ∧ width < block := by
  constructor
  · intro h
    by_contra hcond
    obtain ⟨ps, hps⟩ :=
      get_lines_ok_of ((input.filter isalpha).map toupper) hcond
    obtain ⟨os, hos⟩ :=
      get_lines_ok_of (t ((input.filter isalpha).map toupper)) hcond
    unfold stripRun at h
    cases cmp with
    | false =>
        rw [if_neg Bool.false_ne_true, hos] at h
        exact stripZip_ne_valueerror false os [] h
    | true =>
        rw [if_pos rfl, hps, hos] at h
        exact stripZip_ne_valueerror true os ps h
  · intro h
    unfold stripRun
    cases cmp with
    | false =>
        rw [if_neg Bool.false_ne_true, get_lines_error_of _ h]
    | true =>
        rw [if_pos rfl, get_lines_error_of _ h]

/-- C9 fails on the code: with input text `AB`, a transform yielding no
letters, `block = 0`, `width = 10` and compare enabled, the source side
formats to one line and the output side to none, and the write loop dies
with the join `TypeError` instead of rendering an empty output line. -/
theorem strip_compare_shorter_output_errors :
    stripRun (fun _ => []) [65, 66] 0 10 true
      = Except.error "TypeError: can only join an iterable" := by rfl

/-- The compare write loop succeeds exactly when the source side has no
more lines than the output side, in which case each surplus output line is
written with no accompanying source line at all (not an empty one);
otherwise it fails with the join `TypeError`. -/
theorem stripZip_true_spec :
    ∀ out plain : List (List Nat),
      stripZip true out plain
        = if plain.length ≤ out.length then .ok (expectedCompare out plain)
          else .error "TypeError: can only join an iterable" := by
  intro out
  induction out with
  | nil =>
      intro plain
      cases plain with
      | nil => simp [stripZip, expectedCompare]
      | cons p ps => simp [stripZip]
  | cons l ls ih =>
      intro plain
      cases plain with
      | nil =>
          rw [stripZip, ih []]
          simp [expectedCompare]
      | cons p ps =>
          rw [stripZip, ih ps]
          by_cases hle : ps.length ≤ ls.length
          · rw [if_pos hle]
            rw [if_pos (show (p :: ps).length ≤ (l :: ls).length by
              simp only [List.length_cons]; omega)]
            simp [expectedCompare]
          · rw [if_neg hle]
            rw [if_neg (show ¬(p :: ps).length ≤ (l :: ls).length by
              simp only [List.length_cons]; omega)]

/-- C9 amended.  In strip compare mode, when the formatted source and
output streams yield different numbers of lines: if the output side is at
least as long, no error occurs and the surplus output lines are written
without any source line (nothing is rendered for the missing positions);
if the output side is shorter, the loop raises the join `TypeError` rather
than rendering empty lines. -/
theorem strip_compare_line_mismatch (t : List Nat → List Nat)
    (input : List Nat) (block width : Int) (plain out : List (List Nat))
    (h1 : get_lines ((input.filter isalpha).map toupper) block width
            = .ok plain)
    (h2 : get_lines (t ((input.filter isalpha).map toupper)) block width
            = .ok out) :
    stripRun t input block width true
      = if plain.length ≤ out.length then .ok (expectedCompare out plain)
        else .error "TypeError: can only join an iterable" := by
  unfold stripRun
  rw [if_pos rfl, h1, h2]
  exact stripZip_true_spec out plain

/-- Closed instance of `strip_compare_line_mismatch` at a mismatch: input
`AB`, a transform yielding no letters, block 0, width 10. -/
theorem strip_compare_line_mismatch_witness :
    get_lines (([65, 66].filter isalpha).map toupper) 0 10 = .ok [[65, 66]]
      ∧ get_lines ((fun _ => ([] : List Nat))
            (([65, 66].filter isalpha).map toupper)) 0 10 = .ok []
      ∧ stripRun (fun _ => []) [65, 66] 0 10 true
          = if ([[65, 66]] : List (List Nat)).length ≤ ([] : List (List Nat)).length
            then .ok (expectedCompare [] [[65, 66]])
            else .error "TypeError: can only join an iterable" :=
  ⟨by rfl, by rfl,
    strip_compare_line_mismatch (fun _ => []) [65, 66] 0 10 [[65, 66]] []
      (by rfl) (by rfl)⟩

end CipherStreamer

/-- C1.  The odd-length terminal case of the older decipher revision
(src/autoperm.py line 245, `yield sigma_inverse[b]` with `b = None`) does
not undo the encipherment: enciphering the single letter `A` yields `B`,
the current decipher maps `B` back to `A`, but the older revision yields
the image of `None`, which is `None`, not the letter `A`. -/
theorem autoperm_decipher_old_odd_bug :
    autoperm_encipher ['A'] sigmaEx tauEx = ['B']
      ∧ autoperm_decipher ['B'] sigmaEx tauEx = ['A']
      ∧ autoperm_decipher_old ['B'] sigmaEx tauEx = [none]
      ∧ autoperm_decipher_old ['B'] sigmaEx tauEx ≠ [some 'A'] := by
  refine ⟨by decide, by decide, by decide, by decide⟩

end Autoperm
